import Mathlib

/-!
Verification development for the TDOA/DOA estimation core of the repository.

The embedding covers:
* `estimate_tdoa_cc`   (src/tdoa.py): classic cross-correlation TDOA estimation,
  built on scipy.signal.correlate (mode full) and scipy.signal.correlation_lags,
  with numpy argmax (first occurrence of the maximum).
* `estimate_tdoa_gcc`  (src/tdoa.py): GCC-PHAT / GCC-SCOT TDOA estimation via
  length-n DFT, spectral weighting, inverse DFT, real part, fftshift and argmax.
* `estimate_doa_from_tdoa` (src/doa.py): far-field DOA conversion with clamping.

Numbers are modelled exactly: sample values live in a linear ordered field
(instantiated at ℚ for concrete evaluation and at ℝ for the transform path),
spectra live in ℂ.  Python float literals such as 1e-10 are read as the real
numbers they denote.
-/

namespace DSP

/-- Zero-extended indexing of a list by an integer index: the value of the
signal at sample `i`, with samples outside the buffer read as 0.  This models
the implicit zero padding of linear correlation. -/
def getD0 {α : Type} [Zero α] (s : List α) (i : ℤ) : α :=
  if 0 ≤ i then s.getD i.toNat 0 else 0

/-- Index of the first occurrence of the maximal element of a list, the
semantics of numpy argmax ("In case of multiple occurrences of the maximum
values, the indices corresponding to the first occurrence are returned"). -/
def argmaxIdx {α : Type} [LinearOrder α] [Zero α] : List α → ℕ
  | [] => 0
  | [_] => 0
  | x :: y :: xs =>
    if x < (y :: xs).getD (argmaxIdx (y :: xs)) 0 then argmaxIdx (y :: xs) + 1 else 0

/-! ### Classic cross-correlation path (src/tdoa.py, `estimate_tdoa_cc`)

scipy.signal.correlate(in1, in2, mode=full) on real one-dimensional inputs
computes the full linear cross-correlation: output index j (0 ≤ j < n1+n2-1)
holds the correlation at lag l = j - (n2 - 1), where the correlation at lag l
is the sum over m of in1[m] * in2[m - l] with zero extension.
scipy.signal.correlation_lags(n1, n2, mode=full) returns exactly that lag axis
arange(-n2+1, n1). -/

/-- Linear cross-correlation of two finite signals at integer lag `l`
(zero-extended), the value scipy.signal.correlate produces at that lag. -/
def corrAtLag {α : Type} [LinearOrderedField α] (s1 s2 : List α) (l : ℤ) : α :=
  ∑ m ∈ Finset.range s1.length, getD0 s1 m * getD0 s2 (m - l)

/-- Full linear cross-correlation array, scipy.signal.correlate(s1, s2, full):
index j holds the correlation at lag j - (len s2 - 1). -/
def correlateFull {α : Type} [LinearOrderedField α] (s1 s2 : List α) : List α :=
  (List.range (s1.length + s2.length - 1)).map
    (fun (j : ℕ) => corrAtLag s1 s2 ((j : ℤ) - ((s2.length : ℤ) - 1)))

/-- scipy.signal.correlation_lags(n1, n2, full) = arange(-n2+1, n1). -/
def correlation_lags (n1 n2 : ℕ) : List ℤ :=
  (List.range (n1 + n2 - 1)).map (fun (j : ℕ) => (j : ℤ) - ((n2 : ℤ) - 1))

/-- estimate_tdoa_cc from src/tdoa.py: full cross-correlation, lag axis from
correlation_lags, argmax (first occurrence), lag divided by the sample rate.
The source divides the whole lag array by fs and then indexes it; indexing
then dividing is the same value. -/
def estimate_tdoa_cc {α : Type} [LinearOrderedField α] (s1 s2 : List α) (fs : α) : α :=
  (((correlation_lags s1.length s2.length).getD
      (argmaxIdx (correlateFull s1 s2)) 0 : ℤ) : α) / fs

/-- A copy of a signal delayed by `k` whole samples (k leading zeros). -/
def delayedBy {α : Type} [Zero α] (k : ℕ) (s : List α) : List α :=
  List.replicate k 0 ++ s

/-! ### DOA converter (src/doa.py, `estimate_doa_from_tdoa`) -/

/-- np.clip(x, lo, hi) = minimum(hi, maximum(x, lo)). -/
def npClip (x lo hi : ℝ) : ℝ := min hi (max x lo)

/-- np.degrees: radians to degrees. -/
noncomputable def npDegrees (x : ℝ) : ℝ := x * 180 / Real.pi

/-- estimate_doa_from_tdoa from src/doa.py: ratio tdoa*c/d, clamped into
[-1, 1] by np.clip, arccos, converted to degrees. -/
noncomputable def estimate_doa_from_tdoa (tdoa d c : ℝ) : ℝ :=
  npDegrees (Real.arccos (npClip (tdoa * c / d) (-1) 1))

/-! ### Strings: Python str.lower and substring occurrence -/

/-- Python str.lower: lowercase every character (Char.toLower agrees with
Python lower on the ASCII selectors the source compares against). -/
def pyLower (s : String) : String := String.mk (s.data.map Char.toLower)

/-- The fixed message of the ValueError raised by estimate_tdoa_gcc for an
unrecognised method. -/
def gccErrMsg : String := "Método GCC no reconocido. Use 'phat' o 'scot'."

/-- Whether the first character list is an initial segment of the second. -/
def listStarts {β : Type} [DecidableEq β] : List β → List β → Bool
  | [], _ => true
  | _ :: _, [] => false
  | a :: as, b :: bs => a = b && listStarts as bs

/-- Whether the first character list occurs contiguously inside the second. -/
def occursIn {β : Type} [DecidableEq β] (p : List β) : List β → Bool
  | [] => listStarts p []
  | b :: bs => listStarts p (b :: bs) || occursIn p bs

/-! ### GCC path (src/tdoa.py, `estimate_tdoa_gcc`)

numpy.fft.fft(s, n) computes S[k] = sum over the first n samples m of the
zero-padded signal of s[m] * exp(-2*pi*I*k*m/n); numpy.fft.ifft is the inverse
with the 1/n factor; numpy.fft.fftshift rolls the array by n//2, so entry j of
the shifted array is entry (j + (n - n//2)) mod n of the original. -/

/-- The unit root exp(2*pi*I*a/n) used by the length-n DFT. -/
noncomputable def cexp (n : ℕ) (a : ℤ) : ℂ :=
  Complex.exp (((2 * Real.pi * (a : ℝ) / (n : ℝ) : ℝ) : ℂ) * Complex.I)

/-- np.fft.fft(s, n=n): bin k of the length-n DFT of the zero-padded signal. -/
noncomputable def fftAt (s : List ℝ) (n : ℕ) (k : ℕ) : ℂ :=
  ∑ m ∈ Finset.range n, ((s.getD m 0 : ℝ) : ℂ) * cexp n (-((k : ℤ) * m))

/-- Cross-spectrum R = SIG1 * conj(SIG2) at bin k. -/
noncomputable def crossSpec (s1 s2 : List ℝ) (n : ℕ) (k : ℕ) : ℂ :=
  fftAt s1 n k * (starRingEnd ℂ) (fftAt s2 n k)

/-- The stabilising constant 1e-10 added to the GCC denominators. -/
noncomputable def gccEps : ℝ := 1 / 10 ^ 10

/-- The weighted cross-spectrum of src/tdoa.py at bin k: PHAT divides R by
abs(R) + 1e-10, SCOT divides R by sqrt(P1 * P2) + 1e-10 where Pi = abs(SIGi)^2.
The branch on the lowered method string mirrors the source dispatch; the
function is only consulted for the recognised selectors. -/
noncomputable def weightedSpec (s1 s2 : List ℝ) (n : ℕ) (method : String) (k : ℕ) : ℂ :=
  if pyLower method = "phat" then
    crossSpec s1 s2 n k / (((Complex.abs (crossSpec s1 s2 n k) + gccEps : ℝ)) : ℂ)
  else
    crossSpec s1 s2 n k /
      (((Real.sqrt (Complex.abs (fftAt s1 n k) ^ 2 * Complex.abs (fftAt s2 n k) ^ 2)
          + gccEps : ℝ)) : ℂ)

/-- Real part of entry t of np.fft.ifft of the weighted cross-spectrum
(ifft(R).real in the source). -/
noncomputable def ifftReAt (s1 s2 : List ℝ) (n : ℕ) (method : String) (t : ℕ) : ℝ :=
  ((1 / (n : ℂ)) * ∑ k ∈ Finset.range n, weightedSpec s1 s2 n method k * cexp n ((k : ℤ) * t)).re

/-- numpy fftshift as an index map: entry j of the shifted length-n array is
entry (j + (n - n/2)) mod n of the original array (cyclic roll by n/2). -/
def fftshiftIdx (n j : ℕ) : ℕ := (j + (n - n / 2)) % n

/-- cc = fftshift(ifft(R).real) from src/tdoa.py, as a list of length
n = len(sig1) + len(sig2) - 1. -/
noncomputable def gccCc (s1 s2 : List ℝ) (method : String) : List ℝ :=
  List.ofFn (fun j : Fin (s1.length + s2.length - 1) =>
    ifftReAt s1 s2 (s1.length + s2.length - 1) method
      (fftshiftIdx (s1.length + s2.length - 1) j))

/-- lags_vector = (np.arange(n) - n // 2) / fs from src/tdoa.py. -/
noncomputable def gccLags (n : ℕ) (fs : ℝ) : List ℝ :=
  List.ofFn (fun j : Fin n => (((j : ℕ) : ℝ) - ((n / 2 : ℕ) : ℝ)) / fs)

/-- The scalar weight the PHAT and SCOT branches both compute when the two
input signals are identical: normSq(S[k]) / (normSq(S[k]) + 1e-10). -/
noncomputable def wSelf (s : List ℝ) (n k : ℕ) : ℝ :=
  Complex.normSq (fftAt s n k) / (Complex.normSq (fftAt s n k) + gccEps)

/-- The re-part of the inverse transform of the self-weighted spectrum as a
real cosine sum. -/
noncomputable def xSelf (s : List ℝ) (n t : ℕ) : ℝ :=
  (1 / (n : ℝ)) * ∑ k ∈ Finset.range n,
    wSelf s n k * Real.cos (2 * Real.pi * (((k : ℤ) * t : ℤ) : ℝ) / n)

/-- estimate_tdoa_gcc from src/tdoa.py.  The method dispatch lowercases the
selector; anything other than phat/scot raises ValueError with the fixed
message gccErrMsg (modelled as Except.error).  On the recognised selectors the
result is lags_vector[argmax(cc)]. -/
noncomputable def estimate_tdoa_gcc (s1 s2 : List ℝ) (fs : ℝ) (method : String) :
    Except String ℝ :=
  if pyLower method = "phat" ∨ pyLower method = "scot" then
    Except.ok ((gccLags (s1.length + s2.length - 1) fs).getD
      (argmaxIdx (gccCc s1 s2 method)) 0)
  else
    Except.error gccErrMsg

/-! ### Properties of numpy argmax -/

theorem argmaxIdx_lt_length {α : Type} [LinearOrder α] [Zero α] :
    ∀ (l : List α), l ≠ [] → argmaxIdx l < l.length
  | [], h => absurd rfl h
  | [_], _ => Nat.zero_lt_one
  | x :: y :: xs, _ => by
    have ih := argmaxIdx_lt_length (y :: xs) (List.cons_ne_nil y xs)
    simp only [argmaxIdx]
    split
    · simpa [List.length_cons] using Nat.succ_lt_succ ih
    · simp [List.length_cons]

theorem argmaxIdx_is_max {α : Type} [LinearOrder α] [Zero α] :
    ∀ (l : List α), ∀ i < l.length, l.getD i 0 ≤ l.getD (argmaxIdx l) 0
  | [], i, hi => by simp at hi
  | [x], i, hi => by
    match i, hi with
    | 0, _ => simp [argmaxIdx]
  | x :: y :: xs, i, hi => by
    have ih := fun j hj => argmaxIdx_is_max (y :: xs) j hj
    have hlt := argmaxIdx_lt_length (y :: xs) (List.cons_ne_nil y xs)
    simp only [argmaxIdx]
    split
    · rename_i hcase
      rw [List.getD_cons_succ]
      match i, hi with
      | 0, _ => exact le_of_lt (by simpa using hcase)
      | Nat.succ i', hi' =>
        rw [List.getD_cons_succ]
        exact ih i' (by simpa [List.length_cons] using Nat.lt_of_succ_lt_succ hi')
    · rename_i hcase
      push_neg at hcase
      rw [List.getD_cons_zero]
      match i, hi with
      | 0, _ => simp
      | Nat.succ i', hi' =>
        rw [List.getD_cons_succ]
        exact le_trans (ih i' (by simpa [List.length_cons] using Nat.lt_of_succ_lt_succ hi')) hcase

theorem argmaxIdx_first {α : Type} [LinearOrder α] [Zero α] :
    ∀ (l : List α), ∀ i < argmaxIdx l, l.getD i 0 < l.getD (argmaxIdx l) 0
  | [], i, hi => by simp [argmaxIdx] at hi
  | [x], i, hi => by simp [argmaxIdx] at hi
  | x :: y :: xs, i, hi => by
    have ih := fun j hj => argmaxIdx_first (y :: xs) j hj
    by_cases hcase : x < (y :: xs).getD (argmaxIdx (y :: xs)) 0
    · simp only [argmaxIdx, if_pos hcase] at hi ⊢
      rw [List.getD_cons_succ]
      match i, hi with
      | 0, _ => simpa using hcase
      | Nat.succ i', hi'' =>
        rw [List.getD_cons_succ]
        exact ih i' (Nat.lt_of_succ_lt_succ hi'')
    · simp only [argmaxIdx, if_neg hcase] at hi
      exact absurd hi (Nat.not_lt_zero i)

theorem argmaxIdx_eq_of_strict_max {α : Type} [LinearOrder α] [Zero α]
    (l : List α) (j : ℕ) (hj : j < l.length)
    (hmax : ∀ i < l.length, i ≠ j → l.getD i 0 < l.getD j 0) :
    argmaxIdx l = j := by
  have hne : l ≠ [] := by
    intro h; rw [h] at hj; simp at hj
  by_contra hne'
  have h1 := argmaxIdx_is_max l j hj
  have h2 := hmax (argmaxIdx l) (argmaxIdx_lt_length l hne) hne'
  exact absurd (lt_of_le_of_lt h1 h2) (lt_irrefl _)

/-! ### Facts about zero-extended indexing -/

theorem getD0_of_neg {α : Type} [Zero α] (s : List α) {i : ℤ} (h : i < 0) : getD0 s i = 0 := by
  rw [getD0, if_neg (not_le.mpr h)]

theorem getD0_of_length_le {α : Type} [Zero α] (s : List α) {i : ℤ}
    (h : (s.length : ℤ) ≤ i) : getD0 s i = 0 := by
  have h0 : 0 ≤ i := le_trans (Int.ofNat_nonneg _) h
  rw [getD0, if_pos h0]
  exact List.getD_eq_default _ _ (by omega)

theorem getD0_nonzero_bounds {α : Type} [Zero α] (s : List α) {i : ℤ}
    (h : getD0 s i ≠ 0) : 0 ≤ i ∧ i < (s.length : ℤ) := by
  constructor
  · by_contra hc
    exact h (getD0_of_neg s (by omega))
  · by_contra hc
    exact h (getD0_of_length_le s (by omega))

theorem getD0_coe {α : Type} [Zero α] (s : List α) (m : ℕ) : getD0 s (m : ℤ) = s.getD m 0 := by
  rw [getD0, if_pos (Int.ofNat_nonneg m)]
  simp

theorem getD0_delayedBy {α : Type} [Zero α] (k : ℕ) (s : List α) (i : ℤ) :
    getD0 (delayedBy k s) i = getD0 s (i - k) := by
  rcases lt_or_ge i 0 with h | h
  · rw [getD0_of_neg _ h, getD0_of_neg _ (by omega)]
  rcases lt_or_ge i (k : ℤ) with h2 | h2
  · rw [getD0_of_neg s (by omega), getD0, if_pos h, delayedBy]
    rw [List.getD_append _ _ _ _ (by simp; omega)]
    rw [List.getD_eq_getElem _ _ (by simp; omega)]
    simp
  · rw [getD0, if_pos h, getD0, if_pos (by omega), delayedBy]
    rw [List.getD_append_right _ _ _ _ (by simp; omega)]
    congr 1
    simp only [List.length_replicate]
    omega

/-! ### Reindexing machinery for correlation sums -/

theorem sum_Icc_int_eq_sum_range {M : Type} [AddCommMonoid M] (f : ℤ → M) (L : ℕ) :
    ∑ m ∈ Finset.Icc (0 : ℤ) ((L : ℤ) - 1), f m = ∑ m ∈ Finset.range L, f (m : ℤ) := by
  refine Finset.sum_nbij' (fun a => a.toNat) (fun n => (n : ℤ)) ?_ ?_ ?_ ?_ ?_
  · intro a ha
    simp only [Finset.mem_Icc] at ha
    simp only [Finset.mem_range]
    omega
  · intro a ha
    simp only [Finset.mem_range] at ha
    simp only [Finset.mem_Icc]
    omega
  · intro a ha
    simp only [Finset.mem_Icc] at ha
    exact Int.toNat_of_nonneg ha.1
  · intro a _
    simp
  · intro a ha
    simp only [Finset.mem_Icc] at ha
    rw [Int.toNat_of_nonneg ha.1]

theorem corrAtLag_eq_sum_window {α : Type} [LinearOrderedField α] (s1 s2 : List α) (l : ℤ)
    (T : Finset ℤ) (hT : Finset.Icc (0 : ℤ) ((s1.length : ℤ) - 1) ⊆ T) :
    corrAtLag s1 s2 l = ∑ m ∈ T, getD0 s1 m * getD0 s2 (m - l) := by
  rw [corrAtLag, ← sum_Icc_int_eq_sum_range (fun m => getD0 s1 m * getD0 s2 (m - l)) s1.length]
  refine (Finset.sum_subset hT ?_)
  intro x _ hnx
  have hx' : ¬(0 ≤ x ∧ x ≤ (s1.length : ℤ) - 1) := fun hc => hnx (Finset.mem_Icc.mpr hc)
  have : getD0 s1 x = 0 := by
    rcases lt_or_ge x 0 with h | h
    · exact getD0_of_neg _ h
    · exact getD0_of_length_le _ (by omega)
  rw [this, zero_mul]

theorem corrAtLag_shift_arg {α : Type} [LinearOrderedField α] (s : List α) (l t : ℤ)
    (S T : Finset ℤ) (hST : ∀ a, a ∈ S ↔ a - t ∈ T) :
    ∑ m ∈ S, getD0 s (m - t) * getD0 s (m - l) =
      ∑ m ∈ T, getD0 s m * getD0 s (m - (l - t)) := by
  refine Finset.sum_nbij' (fun a => a - t) (fun a => a + t) ?_ ?_ ?_ ?_ ?_
  · intro a ha
    exact (hST a).mp ha
  · intro a ha
    exact (hST (a + t)).mpr (by simpa using ha)
  · intro a _
    show a - t + t = a
    omega
  · intro a _
    show a + t - t = a
    omega
  · intro a _
    show getD0 s (a - t) * getD0 s (a - l) = getD0 s (a - t) * getD0 s (a - t - (l - t))
    have harg : a - t - (l - t) = a - l := by omega
    rw [harg]

/-! ### The autocorrelation peaks at lag zero (strictly, for nonzero signals) -/

theorem corrAtLag_self_sq_sum {α : Type} [LinearOrderedField α] (s : List α) (l : ℤ) :
    ∑ m ∈ Finset.Icc (min 0 l) (((s.length : ℤ) - 1) + max 0 l),
        (getD0 s m - getD0 s (m - l)) ^ 2
      = 2 * corrAtLag s s 0 - 2 * corrAtLag s s l := by
  set L := s.length with hL
  set W : Finset ℤ := Finset.Icc (min 0 l) (((L : ℤ) - 1) + max 0 l) with hW
  have hWsub : Finset.Icc (0 : ℤ) ((L : ℤ) - 1) ⊆ W := by
    intro a ha
    rw [Finset.mem_Icc] at ha ⊢
    omega
  have hA : corrAtLag s s 0 = ∑ m ∈ W, getD0 s m * getD0 s m := by
    rw [corrAtLag_eq_sum_window s s 0 W hWsub]
    exact Finset.sum_congr rfl (fun m _ => by rw [sub_zero])
  have hC : corrAtLag s s l = ∑ m ∈ W, getD0 s m * getD0 s (m - l) := by
    rw [corrAtLag_eq_sum_window s s l W hWsub]
  have hB : corrAtLag s s 0 = ∑ m ∈ W, getD0 s (m - l) * getD0 s (m - l) := by
    have hshift := corrAtLag_shift_arg s l l W
      (Finset.Icc (min 0 l - l) (((L : ℤ) - 1) + max 0 l - l))
      (by
        intro a
        rw [Finset.mem_Icc, Finset.mem_Icc]
        omega)
    have hsub2 : Finset.Icc (0 : ℤ) ((L : ℤ) - 1) ⊆
        Finset.Icc (min 0 l - l) (((L : ℤ) - 1) + max 0 l - l) := by
      intro a ha
      rw [Finset.mem_Icc] at ha ⊢
      omega
    simp only [sub_self, sub_zero] at hshift
    rw [corrAtLag_eq_sum_window s s 0 _ hsub2]
    simp only [sub_zero]
    exact hshift.symm
  have expand : ∀ m ∈ W, (getD0 s m - getD0 s (m - l)) ^ 2
      = getD0 s m * getD0 s m + getD0 s (m - l) * getD0 s (m - l)
        - 2 * (getD0 s m * getD0 s (m - l)) := by
    intro m _
    ring
  rw [Finset.sum_congr rfl expand, Finset.sum_sub_distrib, Finset.sum_add_distrib,
    ← Finset.mul_sum, ← hA, ← hB, ← hC]
  ring

theorem corrAtLag_self_le {α : Type} [LinearOrderedField α] (s : List α) (l : ℤ) :
    corrAtLag s s l ≤ corrAtLag s s 0 := by
  have h := corrAtLag_self_sq_sum s l
  have hnn : 0 ≤ ∑ m ∈ Finset.Icc (min 0 l) (((s.length : ℤ) - 1) + max 0 l),
      (getD0 s m - getD0 s (m - l)) ^ 2 :=
    Finset.sum_nonneg (fun m _ => sq_nonneg _)
  linarith

theorem corrAtLag_self_lt {α : Type} [LinearOrderedField α] (s : List α) (l : ℤ) (hl : l ≠ 0)
    (hs : ∃ i : ℤ, getD0 s i ≠ 0) : corrAtLag s s l < corrAtLag s s 0 := by
  rcases lt_or_eq_of_le (corrAtLag_self_le s l) with h | h
  · exact h
  exfalso
  have hzero : ∑ m ∈ Finset.Icc (min 0 l) (((s.length : ℤ) - 1) + max 0 l),
      (getD0 s m - getD0 s (m - l)) ^ 2 = 0 := by
    have := corrAtLag_self_sq_sum s l
    rw [h] at this
    linarith
  have heq : ∀ m ∈ Finset.Icc (min 0 l) (((s.length : ℤ) - 1) + max 0 l),
      getD0 s m = getD0 s (m - l) := by
    intro m hm
    have := (Finset.sum_eq_zero_iff_of_nonneg (fun m _ => sq_nonneg
      (getD0 s m - getD0 s (m - l)))).mp hzero m hm
    have h2 : getD0 s m - getD0 s (m - l) = 0 := by
      exact pow_eq_zero_iff (n := 2) (by norm_num) |>.mp this
    linarith
  set L := s.length with hLdef
  have step : ∀ i : ℤ, getD0 s i ≠ 0 → ∃ i' : ℤ, getD0 s i' ≠ 0 ∧ i < i' := by
    intro i hi
    have hb := getD0_nonzero_bounds s hi
    rcases lt_or_gt_of_ne hl with hneg | hpos
    · refine ⟨i - l, ?_, by omega⟩
      rw [← heq i (by rw [Finset.mem_Icc]; omega)]
      exact hi
    · refine ⟨i + l, ?_, by omega⟩
      have := heq (i + l) (by rw [Finset.mem_Icc]; omega)
      rw [add_sub_cancel_right] at this
      rw [this]
      exact hi
  have climb : ∀ n : ℕ, ∀ i : ℤ, getD0 s i ≠ 0 → ((L : ℤ) - 1 - i).toNat ≤ n → False := by
    intro n
    induction n with
    | zero =>
      intro i hi hle
      obtain ⟨i', hi', hlt⟩ := step i hi
      have hb := getD0_nonzero_bounds s hi
      have hb' := getD0_nonzero_bounds s hi'
      omega
    | succ n ih =>
      intro i hi hle
      obtain ⟨i', hi', hlt⟩ := step i hi
      have hb' := getD0_nonzero_bounds s hi'
      exact ih i' hi' (by omega)
  obtain ⟨i0, hi0⟩ := hs
  exact climb ((L : ℤ) - 1 - i0).toNat i0 hi0 le_rfl

theorem corrAtLag_delayedBy {α : Type} [LinearOrderedField α] (k : ℕ) (s : List α) (l : ℤ) :
    corrAtLag (delayedBy k s) s l = corrAtLag s s (l - k) := by
  have hlenz : ((delayedBy k s).length : ℤ) = (k : ℤ) + s.length := by
    simp [delayedBy]
  have hA : corrAtLag (delayedBy k s) s l
      = ∑ m ∈ Finset.Icc (0 : ℤ) ((k : ℤ) + s.length - 1),
          getD0 (delayedBy k s) m * getD0 s (m - l) := by
    refine corrAtLag_eq_sum_window _ _ _ _ ?_
    intro a ha
    rw [Finset.mem_Icc] at ha ⊢
    omega
  have hpt : ∀ m ∈ Finset.Icc (0 : ℤ) ((k : ℤ) + s.length - 1),
      getD0 (delayedBy k s) m * getD0 s (m - l) = getD0 s (m - k) * getD0 s (m - l) := by
    intro m _
    rw [getD0_delayedBy]
  have hshift := corrAtLag_shift_arg s l (k : ℤ)
    (Finset.Icc (0 : ℤ) ((k : ℤ) + s.length - 1))
    (Finset.Icc (-(k : ℤ)) ((s.length : ℤ) - 1))
    (by intro a; rw [Finset.mem_Icc, Finset.mem_Icc]; omega)
  have hB : corrAtLag s s (l - k)
      = ∑ m ∈ Finset.Icc (-(k : ℤ)) ((s.length : ℤ) - 1),
          getD0 s m * getD0 s (m - (l - k)) := by
    refine corrAtLag_eq_sum_window _ _ _ _ ?_
    intro a ha
    rw [Finset.mem_Icc] at ha ⊢
    omega
  rw [hA, Finset.sum_congr rfl hpt, hshift, ← hB]

/-! ### Indexing the correlation array and the lag axis -/

theorem correlateFull_length {α : Type} [LinearOrderedField α] (s1 s2 : List α) :
    (correlateFull s1 s2).length = s1.length + s2.length - 1 := by
  rw [correlateFull, List.length_map, List.length_range]

theorem correlateFull_getD {α : Type} [LinearOrderedField α] (s1 s2 : List α) {j : ℕ}
    (hj : j < s1.length + s2.length - 1) :
    (correlateFull s1 s2).getD j 0 = corrAtLag s1 s2 ((j : ℤ) - ((s2.length : ℤ) - 1)) := by
  rw [correlateFull,
    List.getD_eq_getElem _ _ (by rw [List.length_map, List.length_range]; exact hj),
    List.getElem_map, List.getElem_range]

theorem correlation_lags_length (n1 n2 : ℕ) :
    (correlation_lags n1 n2).length = n1 + n2 - 1 := by
  rw [correlation_lags, List.length_map, List.length_range]

theorem correlation_lags_getD (n1 n2 : ℕ) {j : ℕ} (hj : j < n1 + n2 - 1) :
    (correlation_lags n1 n2).getD j 0 = (j : ℤ) - ((n2 : ℤ) - 1) := by
  rw [correlation_lags,
    List.getD_eq_getElem _ _ (by rw [List.length_map, List.length_range]; exact hj),
    List.getElem_map, List.getElem_range]

/-- Core correctness of the classic path: feeding a delayed copy (k leading
zeros) as the first signal together with the original signal recovers k / fs,
for any signal with at least one nonzero sample. -/
theorem tdoa_cc_delayed_core {α : Type} [LinearOrderedField α] (s : List α) (k : ℕ) (fs : α)
    (hs : ∃ i, ∃ _ : i < s.length, s.getD i 0 ≠ 0) :
    estimate_tdoa_cc (delayedBy k s) s fs = (k : α) / fs := by
  obtain ⟨i0, hi0len, hi0⟩ := hs
  have hL : 1 ≤ s.length := by omega
  set L := s.length with hLdef
  have hlen1 : (delayedBy k s).length = k + L := by simp [delayedBy]
  have hgetD : ∀ j, j < k + L + L - 1 → (correlateFull (delayedBy k s) s).getD j 0
      = corrAtLag s s ((j : ℤ) - ((L : ℤ) - 1) - k) := by
    intro j hj
    rw [correlateFull_getD _ _ (by rw [hlen1]; omega), corrAtLag_delayedBy]
  have hnonzero : ∃ i : ℤ, getD0 s i ≠ 0 := ⟨(i0 : ℤ), by rw [getD0_coe]; exact hi0⟩
  have hjstar : k + L - 1 < k + L + L - 1 := by omega
  have hmax : argmaxIdx (correlateFull (delayedBy k s) s) = k + L - 1 := by
    apply argmaxIdx_eq_of_strict_max
    · rw [correlateFull_length, hlen1]
      omega
    · intro i hilen hine
      rw [correlateFull_length, hlen1] at hilen
      rw [hgetD i hilen, hgetD (k + L - 1) hjstar]
      have harg : ((k + L - 1 : ℕ) : ℤ) - ((L : ℤ) - 1) - k = 0 := by omega
      rw [harg]
      refine corrAtLag_self_lt s _ ?_ hnonzero
      have : (i : ℤ) ≠ ((k + L - 1 : ℕ) : ℤ) := by
        exact_mod_cast fun hc => hine (Nat.cast_injective hc)
      push_cast at this ⊢
      omega
  rw [estimate_tdoa_cc, hmax, hlen1, correlation_lags_getD _ _ (by omega)]
  have : ((k + L - 1 : ℕ) : ℤ) - ((L : ℤ) - 1) = (k : ℤ) := by omega
  rw [this]
  norm_num

/-! ### Claim C2: characterisation of estimate_tdoa_cc -/

/-- C2: for non-empty signals and a positive sample rate, estimate_tdoa_cc
computes the full linear cross-correlation (length len1+len2-1, entry j the
correlation at lag j-(len2-1)), builds the integer lag axis from -(len2-1) to
len1-1, selects the first occurrence of the maximum correlation value, and
returns that lag divided by the sample rate. -/
theorem claim_C2_cc_spec {α : Type} [LinearOrderedField α] (s1 s2 : List α) (fs : α)
    (h1 : s1 ≠ []) (h2 : s2 ≠ []) (hfs : 0 < fs) :
    (correlateFull s1 s2).length = s1.length + s2.length - 1 ∧
    (∀ j, j < s1.length + s2.length - 1 →
      (correlateFull s1 s2).getD j 0 = corrAtLag s1 s2 ((j : ℤ) - ((s2.length : ℤ) - 1))) ∧
    (∀ j, j < s1.length + s2.length - 1 →
      (correlation_lags s1.length s2.length).getD j 0 = (j : ℤ) - ((s2.length : ℤ) - 1)) ∧
    (correlation_lags s1.length s2.length).getD 0 0 = -((s2.length : ℤ) - 1) ∧
    (correlation_lags s1.length s2.length).getD (s1.length + s2.length - 2) 0
      = (s1.length : ℤ) - 1 ∧
    argmaxIdx (correlateFull s1 s2) < s1.length + s2.length - 1 ∧
    (∀ i, i < s1.length + s2.length - 1 →
      (correlateFull s1 s2).getD i 0
        ≤ (correlateFull s1 s2).getD (argmaxIdx (correlateFull s1 s2)) 0) ∧
    (∀ i, i < argmaxIdx (correlateFull s1 s2) →
      (correlateFull s1 s2).getD i 0
        < (correlateFull s1 s2).getD (argmaxIdx (correlateFull s1 s2)) 0) ∧
    estimate_tdoa_cc s1 s2 fs
      = (((argmaxIdx (correlateFull s1 s2) : ℤ) - ((s2.length : ℤ) - 1) : ℤ) : α) / fs := by
  have hl1 : 1 ≤ s1.length := List.length_pos.mpr h1
  have hl2 : 1 ≤ s2.length := List.length_pos.mpr h2
  have hne : correlateFull s1 s2 ≠ [] := by
    intro hc
    have hlen := correlateFull_length s1 s2
    rw [hc] at hlen
    simp only [List.length_nil] at hlen
    omega
  have hargmax : argmaxIdx (correlateFull s1 s2) < s1.length + s2.length - 1 := by
    have := argmaxIdx_lt_length _ hne
    rwa [correlateFull_length] at this
  refine ⟨correlateFull_length s1 s2, fun j hj => correlateFull_getD s1 s2 hj,
    fun j hj => correlation_lags_getD _ _ hj, ?_, ?_, hargmax, ?_, ?_, ?_⟩
  · rw [correlation_lags_getD _ _ (by omega)]
    simp
  · rw [correlation_lags_getD _ _ (by omega)]
    omega
  · intro i hi
    exact argmaxIdx_is_max _ i (by rw [correlateFull_length]; exact hi)
  · exact fun i hi => argmaxIdx_first _ i hi
  · rw [estimate_tdoa_cc, correlation_lags_getD _ _ hargmax]

/-- Witness for C2 at a concrete input pair. -/
theorem claim_C2_cc_spec_witness :
    (correlateFull ([1, 2] : List ℚ) [3]).length
        = ([1, 2] : List ℚ).length + ([3] : List ℚ).length - 1 ∧
    (∀ j, j < ([1, 2] : List ℚ).length + ([3] : List ℚ).length - 1 →
      (correlateFull ([1, 2] : List ℚ) [3]).getD j 0
        = corrAtLag ([1, 2] : List ℚ) [3]
            ((j : ℤ) - ((([3] : List ℚ).length : ℤ) - 1))) ∧
    (∀ j, j < ([1, 2] : List ℚ).length + ([3] : List ℚ).length - 1 →
      (correlation_lags ([1, 2] : List ℚ).length ([3] : List ℚ).length).getD j 0
        = (j : ℤ) - ((([3] : List ℚ).length : ℤ) - 1)) ∧
    (correlation_lags ([1, 2] : List ℚ).length ([3] : List ℚ).length).getD 0 0
      = -((([3] : List ℚ).length : ℤ) - 1) ∧
    (correlation_lags ([1, 2] : List ℚ).length ([3] : List ℚ).length).getD
        (([1, 2] : List ℚ).length + ([3] : List ℚ).length - 2) 0
      = ((([1, 2] : List ℚ).length : ℤ)) - 1 ∧
    argmaxIdx (correlateFull ([1, 2] : List ℚ) [3])
      < ([1, 2] : List ℚ).length + ([3] : List ℚ).length - 1 ∧
    (∀ i, i < ([1, 2] : List ℚ).length + ([3] : List ℚ).length - 1 →
      (correlateFull ([1, 2] : List ℚ) [3]).getD i 0
        ≤ (correlateFull ([1, 2] : List ℚ) [3]).getD
            (argmaxIdx (correlateFull ([1, 2] : List ℚ) [3])) 0) ∧
    (∀ i, i < argmaxIdx (correlateFull ([1, 2] : List ℚ) [3]) →
      (correlateFull ([1, 2] : List ℚ) [3]).getD i 0
        < (correlateFull ([1, 2] : List ℚ) [3]).getD
            (argmaxIdx (correlateFull ([1, 2] : List ℚ) [3])) 0) ∧
    estimate_tdoa_cc ([1, 2] : List ℚ) [3] 1
      = (((argmaxIdx (correlateFull ([1, 2] : List ℚ) [3]) : ℤ)
          - ((([3] : List ℚ).length : ℤ) - 1) : ℤ) : ℚ) / 1 :=
  claim_C2_cc_spec [1, 2] [3] 1 (by simp) (by simp) (by norm_num)

/-! ### Claims C3/C4: recovery of integer delays by the classic path -/

/-- C3 is false as stated: for the identical all-zero two-sample signals the
classic estimator does not return 0; every correlation value ties at 0, numpy
argmax picks the first index, and the returned TDOA is the most negative lag
-1/fs. -/
theorem claim_C3_counterexample :
    estimate_tdoa_cc ([0, 0] : List ℚ) [0, 0] 1 = -1 ∧
    estimate_tdoa_cc ([0, 0] : List ℚ) [0, 0] 1 ≠ 0 := by
  have h : estimate_tdoa_cc ([0, 0] : List ℚ) [0, 0] 1 = -1 := by
    norm_num [estimate_tdoa_cc, correlateFull, correlation_lags, corrAtLag,
      argmaxIdx, getD0, Finset.sum_range_succ, List.range_succ]
  exact ⟨h, by rw [h]; norm_num⟩

/-- C4 is false as stated: for the all-zero signal [0, 0] delayed by one
sample, every correlation value ties at 0 and the first-occurrence argmax
returns the most negative lag -1/fs instead of k/fs = 1. -/
theorem claim_C4_counterexample :
    estimate_tdoa_cc (delayedBy 1 ([0, 0] : List ℚ)) [0, 0] 1 = -1 ∧
    estimate_tdoa_cc (delayedBy 1 ([0, 0] : List ℚ)) [0, 0] 1 ≠ 1 / 1 := by
  have h : estimate_tdoa_cc (delayedBy 1 ([0, 0] : List ℚ)) [0, 0] 1 = -1 := by
    norm_num [estimate_tdoa_cc, delayedBy, List.replicate, correlateFull, correlation_lags,
      corrAtLag, argmaxIdx, getD0, Finset.sum_range_succ, List.range_succ]
  exact ⟨h, by rw [h]; norm_num⟩

/-- C4 (amended): for every signal with at least one nonzero sample and every
delay k, the classic estimator applied to the delayed copy (k leading zeros)
and the original signal recovers exactly k / fs. -/
theorem claim_C4_cc_delay {α : Type} [LinearOrderedField α] (s : List α) (k : ℕ) (fs : α)
    (hs : ∃ i, ∃ _ : i < s.length, s.getD i 0 ≠ 0) :
    estimate_tdoa_cc (delayedBy k s) s fs = (k : α) / fs :=
  tdoa_cc_delayed_core s k fs hs

/-- Witness for C4 (amended) at a concrete nonzero signal and delay 2. -/
theorem claim_C4_cc_delay_witness :
    estimate_tdoa_cc (delayedBy 2 ([1, 5, 2] : List ℚ)) [1, 5, 2] 1 = 2 := by
  have h := claim_C4_cc_delay ([1, 5, 2] : List ℚ) 2 1 ⟨0, by simp, by norm_num⟩
  norm_num at h
  exact h

/-! ### Claims C6-C9: the DOA converter -/

/-- C6: with positive distance, a ratio tdoa*343/d above 1 is clamped to 1 and
yields exactly 0 degrees, and a ratio below -1 is clamped to -1 and yields
exactly 180 degrees; the ratio is never rejected. -/
theorem claim_C6_doa_clamp (tdoa d : ℝ) (hd : 0 < d) :
    (1 < tdoa * 343 / d → estimate_doa_from_tdoa tdoa d 343 = 0) ∧
    (tdoa * 343 / d < -1 → estimate_doa_from_tdoa tdoa d 343 = 180) := by
  constructor
  · intro h
    have hclip : npClip (tdoa * 343 / d) (-1) 1 = 1 := by
      rw [npClip, max_eq_left (by linarith)]
      exact min_eq_left (by linarith)
    rw [estimate_doa_from_tdoa, hclip, Real.arccos_one, npDegrees]
    simp
  · intro h
    have hclip : npClip (tdoa * 343 / d) (-1) 1 = -1 := by
      rw [npClip, max_eq_right (by linarith)]
      exact min_eq_right (by linarith)
    rw [estimate_doa_from_tdoa, hclip, Real.arccos_neg_one, npDegrees]
    rw [div_eq_iff Real.pi_ne_zero]
    ring

/-- Witness for C6: both clamping directions at concrete inputs. -/
theorem claim_C6_doa_clamp_witness :
    estimate_doa_from_tdoa 1 1 343 = 0 ∧ estimate_doa_from_tdoa (-1) 1 343 = 180 :=
  ⟨(claim_C6_doa_clamp 1 1 (by norm_num)).1 (by norm_num),
   (claim_C6_doa_clamp (-1) 1 (by norm_num)).2 (by norm_num)⟩

/-- C7: estimate_doa_from_tdoa is total for positive distance and sound speed:
the arccos argument is clamped into [-1, 1] and the returned angle always lies
in [0, 180] degrees. -/
theorem claim_C7_doa_total (tdoa d c : ℝ) (hd : 0 < d) (hc : 0 < c) :
    -1 ≤ npClip (tdoa * c / d) (-1) 1 ∧ npClip (tdoa * c / d) (-1) 1 ≤ 1 ∧
    0 ≤ estimate_doa_from_tdoa tdoa d c ∧ estimate_doa_from_tdoa tdoa d c ≤ 180 := by
  refine ⟨le_min (by norm_num) (le_max_right _ _), min_le_left _ _, ?_, ?_⟩
  · rw [estimate_doa_from_tdoa, npDegrees]
    have h1 := Real.arccos_nonneg (npClip (tdoa * c / d) (-1) 1)
    exact div_nonneg (mul_nonneg h1 (by norm_num)) Real.pi_pos.le
  · rw [estimate_doa_from_tdoa, npDegrees]
    have h2 := Real.arccos_le_pi (npClip (tdoa * c / d) (-1) 1)
    rw [div_le_iff₀ Real.pi_pos]
    nlinarith [Real.pi_pos]

/-- Witness for C7 at a concrete out-of-range input. -/
theorem claim_C7_doa_total_witness :
    -1 ≤ npClip ((5 : ℝ) * 343 / 1) (-1) 1 ∧ npClip ((5 : ℝ) * 343 / 1) (-1) 1 ≤ 1 ∧
    0 ≤ estimate_doa_from_tdoa 5 1 343 ∧ estimate_doa_from_tdoa 5 1 343 ≤ 180 :=
  claim_C7_doa_total 5 1 343 (by norm_num) (by norm_num)

/-- C8: zero TDOA maps to broadside, exactly 90 degrees, for every positive
distance (and any sound speed). -/
theorem claim_C8_doa_broadside (d c : ℝ) (hd : 0 < d) :
    estimate_doa_from_tdoa 0 d c = 90 := by
  rw [estimate_doa_from_tdoa]
  have hval : (0 : ℝ) * c / d = 0 := by
    rw [zero_mul, zero_div]
  rw [hval]
  have hclip : npClip 0 (-1) 1 = 0 := by
    rw [npClip]
    norm_num
  rw [hclip, Real.arccos_zero, npDegrees]
  rw [div_eq_iff Real.pi_ne_zero]
  ring

/-- Witness for C8 at distance 0.1 (the source default) and speed 343. -/
theorem claim_C8_doa_broadside_witness : estimate_doa_from_tdoa 0 (1 / 10) 343 = 90 :=
  claim_C8_doa_broadside (1 / 10) 343 (by norm_num)

/-- C9: round trip through the geometric model: for an angle θ in [0, 180]
degrees, the implied TDOA d*cos(θ in radians)/c fed back through the converter
recovers θ exactly. -/
theorem claim_C9_doa_roundtrip (θ d c : ℝ) (h0 : 0 ≤ θ) (h180 : θ ≤ 180)
    (hd : 0 < d) (hc : 0 < c) :
    estimate_doa_from_tdoa (d * Real.cos (θ * Real.pi / 180) / c) d c = θ := by
  rw [estimate_doa_from_tdoa]
  have hval : d * Real.cos (θ * Real.pi / 180) / c * c / d = Real.cos (θ * Real.pi / 180) := by
    field_simp
  rw [hval]
  have hclip : npClip (Real.cos (θ * Real.pi / 180)) (-1) 1 = Real.cos (θ * Real.pi / 180) := by
    rw [npClip, max_eq_left (Real.neg_one_le_cos _), min_eq_right (Real.cos_le_one _)]
  rw [hclip, Real.arccos_cos ?hrad0 ?hradpi]
  case hrad0 =>
    exact div_nonneg (mul_nonneg h0 Real.pi_pos.le) (by norm_num)
  case hradpi =>
    rw [div_le_iff₀ (by norm_num : (0 : ℝ) < 180)]
    nlinarith [Real.pi_pos]
  rw [npDegrees]
  field_simp

/-- Witness for C9 at θ = 60 degrees. -/
theorem claim_C9_doa_roundtrip_witness :
    estimate_doa_from_tdoa (1 * Real.cos (60 * Real.pi / 180) / 343) 1 343 = 60 :=
  claim_C9_doa_roundtrip 60 1 343 (by norm_num) (by norm_num) (by norm_num) (by norm_num)

/-! ### GCC dispatch: method selection and the error path -/

theorem gcc_error_core (s1 s2 : List ℝ) (fs : ℝ) (method : String)
    (h1 : pyLower method ≠ "phat") (h2 : pyLower method ≠ "scot") :
    estimate_tdoa_gcc s1 s2 fs method = Except.error gccErrMsg := by
  rw [estimate_tdoa_gcc, if_neg (not_or.mpr ⟨h1, h2⟩)]

theorem gcc_lower_congr (s1 s2 : List ℝ) (fs : ℝ) (m1 m2 : String)
    (h : pyLower m1 = pyLower m2) :
    estimate_tdoa_gcc s1 s2 fs m1 = estimate_tdoa_gcc s1 s2 fs m2 := by
  have hcc : gccCc s1 s2 m1 = gccCc s1 s2 m2 := by
    simp only [gccCc, ifftReAt, weightedSpec, h]
  rw [estimate_tdoa_gcc, estimate_tdoa_gcc, h, hcc]

/-- C5 is false as stated on the "identifies the unsupported method name"
part: at method "invalid" the raised error carries the fixed message about the
supported selectors, and the unsupported name "invalid" does not occur in it. -/
theorem claim_C5_counterexample :
    estimate_tdoa_gcc [(1 : ℝ)] [1] 1 "invalid" = Except.error gccErrMsg ∧
    occursIn "invalid".toList gccErrMsg.toList = false := by
  refine ⟨gcc_error_core _ _ _ _ (by decide) (by decide), by decide⟩

/-- C5 (amended): for every method string that does not lowercase to "phat" or
"scot", estimate_tdoa_gcc fails with the invalid-argument error carrying the
fixed message naming the supported methods, and returns no numeric value. -/
theorem claim_C5_invalid_method (s1 s2 : List ℝ) (fs : ℝ) (method : String)
    (h1 : pyLower method ≠ "phat") (h2 : pyLower method ≠ "scot") :
    estimate_tdoa_gcc s1 s2 fs method = Except.error gccErrMsg :=
  gcc_error_core s1 s2 fs method h1 h2

/-- Witness for C5 (amended) at method "invalid". -/
theorem claim_C5_invalid_method_witness :
    estimate_tdoa_gcc [(1 : ℝ)] [(2 : ℝ)] 1 "invalid" = Except.error gccErrMsg :=
  claim_C5_invalid_method [1] [2] 1 "invalid" (by decide) (by decide)

/-- C10: method selection is case-insensitive: a selector lowercasing to
"phat" (resp. "scot") behaves exactly like "phat" (resp. "scot"), and only
selectors lowercasing to neither raise the invalid-argument error. -/
theorem claim_C10_case_insensitive (method : String) (s1 s2 : List ℝ) (fs : ℝ) :
    (pyLower method = "phat" →
      estimate_tdoa_gcc s1 s2 fs method = estimate_tdoa_gcc s1 s2 fs "phat") ∧
    (pyLower method = "scot" →
      estimate_tdoa_gcc s1 s2 fs method = estimate_tdoa_gcc s1 s2 fs "scot") ∧
    (pyLower method ≠ "phat" → pyLower method ≠ "scot" →
      estimate_tdoa_gcc s1 s2 fs method = Except.error gccErrMsg) := by
  refine ⟨?_, ?_, gcc_error_core s1 s2 fs method⟩
  · intro h
    exact gcc_lower_congr s1 s2 fs method "phat" (by rw [h]; decide)
  · intro h
    exact gcc_lower_congr s1 s2 fs method "scot" (by rw [h]; decide)

/-- Witness for C10 at the uppercase selectors. -/
theorem claim_C10_case_insensitive_witness :
    estimate_tdoa_gcc [(1 : ℝ)] [1] 1 "PHAT" = estimate_tdoa_gcc [(1 : ℝ)] [1] 1 "phat" ∧
    estimate_tdoa_gcc [(1 : ℝ)] [1] 1 "Scot" = estimate_tdoa_gcc [(1 : ℝ)] [1] 1 "scot" :=
  ⟨(claim_C10_case_insensitive "PHAT" [1] [1] 1).1 (by decide),
   (claim_C10_case_insensitive "Scot" [1] [1] 1).2.1 (by decide)⟩

/-! ### Indexing the GCC correlation array and lag vector -/

theorem gccCc_length (s1 s2 : List ℝ) (m : String) :
    (gccCc s1 s2 m).length = s1.length + s2.length - 1 := by
  rw [gccCc, List.length_ofFn]

theorem gccCc_getD (s1 s2 : List ℝ) (m : String) {j : ℕ}
    (hj : j < s1.length + s2.length - 1) :
    (gccCc s1 s2 m).getD j 0
      = ifftReAt s1 s2 (s1.length + s2.length - 1) m
          (fftshiftIdx (s1.length + s2.length - 1) j) := by
  rw [gccCc, List.getD_eq_getElem _ _ (by rw [List.length_ofFn]; exact hj), List.getElem_ofFn]

theorem gccLags_getD (n : ℕ) (fs : ℝ) {j : ℕ} (hj : j < n) :
    (gccLags n fs).getD j 0 = ((j : ℝ) - ((n / 2 : ℕ) : ℝ)) / fs := by
  rw [gccLags, List.getD_eq_getElem _ _ (by rw [List.length_ofFn]; exact hj), List.getElem_ofFn]

/-- numpy fftshift re-centers circularly: the entry at shifted index j is the
original entry at (j - n/2) mod n, so index n/2 corresponds to entry 0
(lag zero). -/
theorem fftshiftIdx_emod (n j : ℕ) (hj : j < n) :
    (fftshiftIdx n j : ℤ) = ((j : ℤ) - ((n / 2 : ℕ) : ℤ)) % (n : ℤ) := by
  have hn : 0 < n := by omega
  have hhalf : n / 2 < n := Nat.div_lt_self hn (by norm_num)
  rw [fftshiftIdx]
  rcases lt_or_ge j (n / 2) with hcase | hcase
  · have h1 : j + (n - n / 2) < n := by omega
    rw [Nat.mod_eq_of_lt h1]
    have h2 := Int.add_mul_emod_self_left (a := (j : ℤ) - ((n / 2 : ℕ) : ℤ))
      (b := (n : ℤ)) (c := 1)
    rw [mul_one] at h2
    rw [← h2, Int.emod_eq_of_lt (by omega) (by omega)]
    omega
  · have h1 : n ≤ j + (n - n / 2) := by omega
    have h2 : j + (n - n / 2) - n < n := by omega
    rw [Nat.mod_eq_sub_mod h1, Nat.mod_eq_of_lt h2]
    rw [Int.emod_eq_of_lt (by omega) (by omega)]
    omega

theorem fftshiftIdx_half (n : ℕ) (hn : 0 < n) : fftshiftIdx n (n / 2) = 0 := by
  have : n / 2 + (n - n / 2) = n := by omega
  rw [fftshiftIdx, this, Nat.mod_self]

theorem fftshiftIdx_lt (n j : ℕ) (hn : 0 < n) : fftshiftIdx n j < n :=
  Nat.mod_lt _ hn

theorem fftshiftIdx_ne_zero (n j : ℕ) (hj : j < n) (hne : j ≠ n / 2) :
    fftshiftIdx n j ≠ 0 := by
  rw [fftshiftIdx]
  intro hc
  rcases lt_or_ge j (n / 2) with hcase | hcase
  · have h1 : j + (n - n / 2) < n := by omega
    rw [Nat.mod_eq_of_lt h1] at hc
    omega
  · have h1 : n ≤ j + (n - n / 2) := by omega
    have h2 : j + (n - n / 2) - n < n := by omega
    rw [Nat.mod_eq_sub_mod h1, Nat.mod_eq_of_lt h2] at hc
    omega

/-! ### Claim C1: characterisation of the GCC pipeline -/

/-- C1: for the GCC methods phat and scot on non-empty signals,
estimate_tdoa_gcc works at transform length n = len1+len2-1; the correlation
array is the real part of the inverse transform of the weighted cross-spectrum
circularly re-centered so that index n/2 holds lag 0 (entry j holds the
inverse-transform entry at (j - n/2) mod n); the selected index is the first
occurrence of the maximal value; and the result is (argmax - n/2)/fs. -/
theorem claim_C1_gcc_pipeline (s1 s2 : List ℝ) (fs : ℝ) (method : String)
    (h1 : s1 ≠ []) (h2 : s2 ≠ []) (hm : method = "phat" ∨ method = "scot") :
    (gccCc s1 s2 method).length = s1.length + s2.length - 1 ∧
    (∀ j, j < s1.length + s2.length - 1 →
      (gccCc s1 s2 method).getD j 0
        = ifftReAt s1 s2 (s1.length + s2.length - 1) method
            ((((j : ℤ) - (((s1.length + s2.length - 1) / 2 : ℕ) : ℤ))
              % ((s1.length + s2.length - 1 : ℕ) : ℤ)).toNat)) ∧
    argmaxIdx (gccCc s1 s2 method) < s1.length + s2.length - 1 ∧
    (∀ i, i < s1.length + s2.length - 1 →
      (gccCc s1 s2 method).getD i 0
        ≤ (gccCc s1 s2 method).getD (argmaxIdx (gccCc s1 s2 method)) 0) ∧
    (∀ i, i < argmaxIdx (gccCc s1 s2 method) →
      (gccCc s1 s2 method).getD i 0
        < (gccCc s1 s2 method).getD (argmaxIdx (gccCc s1 s2 method)) 0) ∧
    estimate_tdoa_gcc s1 s2 fs method
      = Except.ok (((argmaxIdx (gccCc s1 s2 method) : ℝ)
          - (((s1.length + s2.length - 1) / 2 : ℕ) : ℝ)) / fs) := by
  have hl1 : 1 ≤ s1.length := List.length_pos.mpr h1
  have hl2 : 1 ≤ s2.length := List.length_pos.mpr h2
  have hn : 0 < s1.length + s2.length - 1 := by omega
  have hne : gccCc s1 s2 method ≠ [] := by
    intro hc
    have hlen := gccCc_length s1 s2 method
    rw [hc] at hlen
    simp only [List.length_nil] at hlen
    omega
  have hargmax : argmaxIdx (gccCc s1 s2 method) < s1.length + s2.length - 1 := by
    have := argmaxIdx_lt_length _ hne
    rwa [gccCc_length] at this
  have hlow : pyLower method = "phat" ∨ pyLower method = "scot" := by
    rcases hm with h | h <;> rw [h]
    · exact Or.inl (by decide)
    · exact Or.inr (by decide)
  refine ⟨gccCc_length s1 s2 method, ?_, hargmax, ?_, ?_, ?_⟩
  · intro j hj
    rw [gccCc_getD s1 s2 method hj]
    congr 1
    have hsh := fftshiftIdx_emod (s1.length + s2.length - 1) j hj
    omega
  · intro i hi
    exact argmaxIdx_is_max _ i (by rw [gccCc_length]; exact hi)
  · exact fun i hi => argmaxIdx_first _ i hi
  · rw [estimate_tdoa_gcc, if_pos hlow, gccLags_getD _ _ hargmax]

/-- Witness for C1 at a concrete input. -/
theorem claim_C1_gcc_pipeline_witness :
    (gccCc [(1 : ℝ)] [1] "phat").length
        = [(1 : ℝ)].length + [(1 : ℝ)].length - 1 ∧
    (∀ j, j < [(1 : ℝ)].length + [(1 : ℝ)].length - 1 →
      (gccCc [(1 : ℝ)] [1] "phat").getD j 0
        = ifftReAt [(1 : ℝ)] [1] ([(1 : ℝ)].length + [(1 : ℝ)].length - 1) "phat"
            ((((j : ℤ) - ((([(1 : ℝ)].length + [(1 : ℝ)].length - 1) / 2 : ℕ) : ℤ))
              % (([(1 : ℝ)].length + [(1 : ℝ)].length - 1 : ℕ) : ℤ)).toNat)) ∧
    argmaxIdx (gccCc [(1 : ℝ)] [1] "phat") < [(1 : ℝ)].length + [(1 : ℝ)].length - 1 ∧
    (∀ i, i < [(1 : ℝ)].length + [(1 : ℝ)].length - 1 →
      (gccCc [(1 : ℝ)] [1] "phat").getD i 0
        ≤ (gccCc [(1 : ℝ)] [1] "phat").getD (argmaxIdx (gccCc [(1 : ℝ)] [1] "phat")) 0) ∧
    (∀ i, i < argmaxIdx (gccCc [(1 : ℝ)] [1] "phat") →
      (gccCc [(1 : ℝ)] [1] "phat").getD i 0
        < (gccCc [(1 : ℝ)] [1] "phat").getD (argmaxIdx (gccCc [(1 : ℝ)] [1] "phat")) 0) ∧
    estimate_tdoa_gcc [(1 : ℝ)] [1] 1 "phat"
      = Except.ok (((argmaxIdx (gccCc [(1 : ℝ)] [1] "phat") : ℝ)
          - ((([(1 : ℝ)].length + [(1 : ℝ)].length - 1) / 2 : ℕ) : ℝ)) / 1) :=
  claim_C1_gcc_pipeline [1] [1] 1 "phat" (by simp) (by simp) (Or.inl rfl)

/-! ### Roots of unity: basic identities for cexp -/

theorem cexp_re (n : ℕ) (a : ℤ) :
    (cexp n a).re = Real.cos (2 * Real.pi * (a : ℝ) / n) := by
  rw [cexp]
  exact Complex.exp_ofReal_mul_I_re _

theorem cexp_zero (n : ℕ) : cexp n 0 = 1 := by
  simp [cexp]

theorem cexp_add (n : ℕ) (a b : ℤ) : cexp n (a + b) = cexp n a * cexp n b := by
  rw [cexp, cexp, cexp, ← Complex.exp_add]
  congr 1
  push_cast
  ring

theorem cexp_nat_mul (n : ℕ) (k : ℕ) (a : ℤ) : cexp n ((k : ℤ) * a) = cexp n a ^ k := by
  induction k with
  | zero => simp [cexp_zero]
  | succ k ih =>
    have hsplit : ((k + 1 : ℕ) : ℤ) * a = (k : ℤ) * a + a := by push_cast; ring
    rw [hsplit, cexp_add, ih, pow_succ]

theorem cexp_eq_one_iff (n : ℕ) (hn : 0 < n) (a : ℤ) :
    cexp n a = 1 ↔ (n : ℤ) ∣ a := by
  rw [cexp, Complex.exp_eq_one_iff]
  have hnR : (n : ℝ) ≠ 0 := Nat.cast_ne_zero.mpr (by omega)
  have h2pi : (2 * Real.pi) ≠ 0 := by positivity
  constructor
  · rintro ⟨m, hm⟩
    have him := congrArg Complex.im hm
    simp only [Complex.mul_im, Complex.ofReal_re, Complex.ofReal_im, Complex.I_re,
      Complex.I_im, Complex.mul_re, Complex.re_ofNat, Complex.im_ofNat, Complex.intCast_re,
      Complex.intCast_im] at him
    -- him : 2π a / n = m * 2π (up to arrangement)
    have hR : 2 * Real.pi * (a : ℝ) / (n : ℝ) = (m : ℝ) * (2 * Real.pi) := by
      linarith [him]
    have hcast : (a : ℝ) = (m : ℝ) * n := by
      apply mul_left_cancel₀ h2pi
      field_simp at hR
      linear_combination hR
    have haz : a = m * n := by exact_mod_cast hcast
    exact ⟨m, by rw [haz]; ring⟩
  · rintro ⟨c, hc⟩
    refine ⟨c, ?_⟩
    have harg : (2 * Real.pi * (a : ℝ) / (n : ℝ)) = (c : ℝ) * (2 * Real.pi) := by
      rw [hc]
      push_cast
      field_simp
      ring
    rw [harg]
    push_cast
    ring

theorem sum_cexp (n : ℕ) (hn : 0 < n) (j : ℤ) :
    ∑ k ∈ Finset.range n, cexp n ((k : ℤ) * j) = if (n : ℤ) ∣ j then (n : ℂ) else 0 := by
  split
  · rename_i hd
    have hone : ∀ k ∈ Finset.range n, cexp n ((k : ℤ) * j) = 1 := by
      intro k _
      exact (cexp_eq_one_iff n hn _).mpr (Dvd.dvd.mul_left hd k)
    rw [Finset.sum_congr rfl hone, Finset.sum_const, Finset.card_range]
    simp
  · rename_i hd
    have hne : cexp n j ≠ 1 := fun hc => hd ((cexp_eq_one_iff n hn j).mp hc)
    have hterm : ∀ k ∈ Finset.range n, cexp n ((k : ℤ) * j) = cexp n j ^ k := by
      intro k _
      exact cexp_nat_mul n k j
    rw [Finset.sum_congr rfl hterm, geom_sum_eq hne n]
    have hpow : cexp n j ^ n = 1 := by
      rw [← cexp_nat_mul]
      exact (cexp_eq_one_iff n hn _).mpr ⟨j, rfl⟩
    rw [hpow]
    simp

/-! ### Fourier inversion for the length-n DFT of the padded signal -/

theorem dft_inversion (s : List ℝ) (n : ℕ) (hn : 0 < n) (t : ℕ) (ht : t < n) :
    (1 / (n : ℂ)) * ∑ k ∈ Finset.range n, fftAt s n k * cexp n ((k : ℤ) * t)
      = ((s.getD t 0 : ℝ) : ℂ) := by
  have hnne : (n : ℂ) ≠ 0 := Nat.cast_ne_zero.mpr (by omega)
  have h1 : ∀ k ∈ Finset.range n, fftAt s n k * cexp n ((k : ℤ) * t)
      = ∑ m ∈ Finset.range n, ((s.getD m 0 : ℝ) : ℂ) * cexp n ((k : ℤ) * ((t : ℤ) - m)) := by
    intro k _
    rw [fftAt, Finset.sum_mul]
    refine Finset.sum_congr rfl fun m _ => ?_
    rw [mul_assoc, ← cexp_add]
    congr 2
    ring
  rw [Finset.sum_congr rfl h1, Finset.sum_comm]
  have h2 : ∀ m ∈ Finset.range n, (∑ k ∈ Finset.range n,
      ((s.getD m 0 : ℝ) : ℂ) * cexp n ((k : ℤ) * ((t : ℤ) - m)))
      = ((s.getD m 0 : ℝ) : ℂ) * (if (n : ℤ) ∣ ((t : ℤ) - m) then (n : ℂ) else 0) := by
    intro m _
    rw [← Finset.mul_sum, sum_cexp n hn]
  rw [Finset.sum_congr rfl h2, Finset.sum_eq_single t]
  · rw [sub_self, if_pos (dvd_zero _)]
    field_simp
  · intro b hb hbne
    rw [if_neg, mul_zero]
    intro hdvd
    have hzero : (t : ℤ) - b = 0 := by
      refine Int.eq_zero_of_abs_lt_dvd hdvd ?_
      rw [abs_lt]
      have := Finset.mem_range.mp hb
      constructor <;> omega
    have : b = t := by omega
    exact hbne this
  · intro hnot
    exact absurd (Finset.mem_range.mpr ht) hnot

/-! ### For identical signals, PHAT and SCOT compute the same real weight -/

theorem gccEps_pos : 0 < gccEps := by
  rw [gccEps]
  norm_num

theorem wSelf_nonneg (s : List ℝ) (n k : ℕ) : 0 ≤ wSelf s n k :=
  div_nonneg (Complex.normSq_nonneg _)
    (add_nonneg (Complex.normSq_nonneg _) gccEps_pos.le)

theorem wSelf_pos (s : List ℝ) (n k : ℕ) (h : fftAt s n k ≠ 0) : 0 < wSelf s n k :=
  div_pos (Complex.normSq_pos.mpr h)
    (add_pos_of_nonneg_of_pos (Complex.normSq_nonneg _) gccEps_pos)

theorem crossSpec_self (s : List ℝ) (n k : ℕ) :
    crossSpec s s n k = ((Complex.normSq (fftAt s n k) : ℝ) : ℂ) := by
  rw [crossSpec]
  exact Complex.mul_conj _

theorem weightedSpec_self (s : List ℝ) (n : ℕ) (m : String)
    (hm : pyLower m = "phat" ∨ pyLower m = "scot") (k : ℕ) :
    weightedSpec s s n m k = ((wSelf s n k : ℝ) : ℂ) := by
  rcases hm with h | h
  · have habs : Complex.abs (crossSpec s s n k) = Complex.normSq (fftAt s n k) := by
      rw [crossSpec_self, Complex.abs_ofReal, abs_of_nonneg (Complex.normSq_nonneg _)]
    rw [weightedSpec, if_pos h, habs, crossSpec_self, wSelf]
    exact (Complex.ofReal_div _ _).symm
  · have hsqrt : Real.sqrt (Complex.abs (fftAt s n k) ^ 2 * Complex.abs (fftAt s n k) ^ 2)
        = Complex.normSq (fftAt s n k) := by
      rw [Real.sqrt_mul_self (by positivity)]
      exact Complex.sq_abs _
    rw [weightedSpec, if_neg (by rw [h]; decide), hsqrt, crossSpec_self, wSelf]
    exact (Complex.ofReal_div _ _).symm

theorem ifftReAt_self (s : List ℝ) (n : ℕ) (m : String)
    (hm : pyLower m = "phat" ∨ pyLower m = "scot") (t : ℕ) :
    ifftReAt s s n m t = xSelf s n t := by
  rw [ifftReAt, xSelf]
  have hsum : ∀ k ∈ Finset.range n, weightedSpec s s n m k * cexp n ((k : ℤ) * t)
      = ((wSelf s n k : ℝ) : ℂ) * cexp n ((k : ℤ) * t) := by
    intro k _
    rw [weightedSpec_self s n m hm k]
  rw [Finset.sum_congr rfl hsum]
  have hcoe : (1 / (n : ℂ)) = (((1 / n : ℝ)) : ℂ) := by
    push_cast
    ring
  rw [hcoe]
  simp only [Complex.mul_re, Complex.ofReal_re, Complex.ofReal_im, zero_mul, sub_zero,
    Complex.re_sum, cexp_re]

/-! ### The self-weighted inverse transform peaks at time index 0 -/

theorem xSelf_term_le (s : List ℝ) (n k t : ℕ) :
    wSelf s n k * Real.cos (2 * Real.pi * (((k : ℤ) * t : ℤ) : ℝ) / n)
      ≤ wSelf s n k * Real.cos (2 * Real.pi * (((k : ℤ) * (0 : ℕ) : ℤ) : ℝ) / n) := by
  have hzero : (((k : ℤ) * (0 : ℕ) : ℤ) : ℝ) = 0 := by push_cast; ring
  rw [hzero]
  simp only [mul_zero, zero_div, Real.cos_zero, mul_one]
  exact le_trans (mul_le_mul_of_nonneg_left (Real.cos_le_one _) (wSelf_nonneg s n k))
    (le_of_eq (mul_one _))

theorem xSelf_le_zero (s : List ℝ) (n t : ℕ) : xSelf s n t ≤ xSelf s n 0 := by
  rw [xSelf, xSelf]
  refine mul_le_mul_of_nonneg_left ?_ (div_nonneg zero_le_one (Nat.cast_nonneg n))
  exact Finset.sum_le_sum (fun k _ => xSelf_term_le s n k t)

theorem xSelf_lt_zero (s : List ℝ) (n : ℕ) (hn : 0 < n) (t : ℕ)
    (hex : ∃ k, k < n ∧ fftAt s n k ≠ 0 ∧ ¬((n : ℤ) ∣ (k : ℤ) * t)) :
    xSelf s n t < xSelf s n 0 := by
  obtain ⟨k0, hk0n, hk0ne, hk0nd⟩ := hex
  rw [xSelf, xSelf]
  have hnR : (0 : ℝ) < 1 / n := by
    apply div_pos zero_lt_one
    exact_mod_cast hn
  refine mul_lt_mul_of_pos_left ?_ hnR
  refine Finset.sum_lt_sum (fun k _ => xSelf_term_le s n k t) ⟨k0, Finset.mem_range.mpr hk0n, ?_⟩
  have hcos : Real.cos (2 * Real.pi * (((k0 : ℤ) * t : ℤ) : ℝ) / n) < 1 := by
    rcases lt_or_eq_of_le (Real.cos_le_one (2 * Real.pi * (((k0 : ℤ) * t : ℤ) : ℝ) / n))
      with h | h
    · exact h
    exfalso
    obtain ⟨mm, hmm⟩ := (Real.cos_eq_one_iff _).mp h
    apply hk0nd
    have hnne : (n : ℝ) ≠ 0 := Nat.cast_ne_zero.mpr (by omega)
    have h2pi : (2 * Real.pi) ≠ 0 := by positivity
    have hcast : ((k0 : ℝ) * t) = (mm : ℝ) * n := by
      apply mul_left_cancel₀ h2pi
      field_simp at hmm
      linear_combination -hmm
    have hz : (k0 : ℤ) * t = mm * n := by exact_mod_cast hcast
    exact ⟨mm, by rw [hz]; ring⟩
  have hzero : (((k0 : ℤ) * (0 : ℕ) : ℤ) : ℝ) = 0 := by push_cast; ring
  rw [hzero]
  simp only [mul_zero, zero_div, Real.cos_zero, mul_one]
  calc wSelf s n k0 * Real.cos (2 * Real.pi * (((k0 : ℤ) * t : ℤ) : ℝ) / n)
      < wSelf s n k0 * 1 := mul_lt_mul_of_pos_left hcos (wSelf_pos s n k0 hk0ne)
    _ = wSelf s n k0 := mul_one _

/-! ### Support of the padded spectrum: the number-theoretic core -/

theorem exists_mul_in_window (a g : ℕ) (hg : 0 < g) : ∃ q, a ≤ q * g ∧ q * g < a + g := by
  induction a with
  | zero => exact ⟨0, by simp, by simpa using hg⟩
  | succ a ih =>
    obtain ⟨q, h1, h2⟩ := ih
    rcases Nat.lt_or_ge (q * g) (a + 1) with hlt | hge
    · refine ⟨q + 1, ?_, ?_⟩
      · rw [Nat.succ_mul]
        omega
      · rw [Nat.succ_mul]
        omega
    · exact ⟨q, hge, by omega⟩

/-- If every nonzero bin k of the length-(2L-1) spectrum of the zero-padded
signal satisfies n | k*t for some t in [1, n-1], then the padded signal is
periodic with a period dividing the odd length n and short enough that the
padding zeros propagate everywhere: the signal must be all zero.
Contrapositive: a signal with a nonzero sample has, for every such t, a bin
with nonzero spectrum whose product with t is not divisible by n. -/
theorem gcc_self_support (s : List ℝ) (hs : ∃ i, ∃ _ : i < s.length, s.getD i 0 ≠ 0)
    (t : ℕ) (ht1 : 1 ≤ t) (ht2 : t < s.length + s.length - 1) :
    ∃ k, k < s.length + s.length - 1 ∧ fftAt s (s.length + s.length - 1) k ≠ 0
      ∧ ¬(((s.length + s.length - 1 : ℕ) : ℤ) ∣ (k : ℤ) * t) := by
  set L := s.length with hL
  set n := L + L - 1 with hn
  obtain ⟨i0, hi0L, hi0⟩ := hs
  have hL1 : 1 ≤ L := by omega
  have hL2 : 2 ≤ L := by omega
  have hnpos : 0 < n := by omega
  by_contra hcon
  push_neg at hcon
  set g := Nat.gcd t n with hg
  have hgpos : 0 < g := Nat.gcd_pos_of_pos_right _ hnpos
  have hgdvdn : g ∣ n := Nat.gcd_dvd_right t n
  have hgdvdt : g ∣ t := Nat.gcd_dvd_left t n
  have hglt : g < n := by
    have := Nat.le_of_dvd (by omega) hgdvdt
    omega
  have hg3 : 3 * g ≤ n := by
    obtain ⟨c, hc⟩ := hgdvdn
    have hc0 : c ≠ 0 := by
      intro h0
      rw [h0, mul_zero] at hc
      omega
    have hc1 : c ≠ 1 := by
      intro h1
      rw [h1, mul_one] at hc
      omega
    have hc2 : c ≠ 2 := by
      intro h2
      rw [h2] at hc
      omega
    have hc3 : 3 ≤ c := by omega
    calc 3 * g ≤ c * g := Nat.mul_le_mul_right g hc3
      _ = n := by rw [hc, Nat.mul_comm]
  have hgL : g ≤ L - 1 := by omega
  set n' := n / g with hn'
  have hn'g : n' * g = n := Nat.div_mul_cancel hgdvdn
  have hdvd_bin : ∀ k, k < n → fftAt s n k ≠ 0 → n' ∣ k := by
    intro k hk hkne
    have hd := hcon k hk hkne
    have hdn : n ∣ k * t := by exact_mod_cast hd
    set t' := t / g with ht'
    have ht'g : t' * g = t := Nat.div_mul_cancel hgdvdt
    have hco : Nat.Coprime n' t' := by
      have h := Nat.coprime_div_gcd_div_gcd (m := t) (n := n) (by rw [← hg]; omega)
      exact h.symm
    apply hco.dvd_of_dvd_mul_right
    have hstep : n' * g ∣ k * t' * g := by
      rw [mul_assoc, ht'g, hn'g]
      exact hdn
    exact (Nat.mul_dvd_mul_iff_right hgpos).mp hstep
  have hper : ∀ m, m + g < n → s.getD (m + g) 0 = s.getD m 0 := by
    intro m hm
    have hinv1 := dft_inversion s n hnpos (m + g) (by omega)
    have hinv2 := dft_inversion s n hnpos m (by omega)
    have hsame : ∑ k ∈ Finset.range n, fftAt s n k * cexp n ((k : ℤ) * ((m + g : ℕ) : ℤ))
        = ∑ k ∈ Finset.range n, fftAt s n k * cexp n ((k : ℤ) * (m : ℕ)) := by
      refine Finset.sum_congr rfl fun k hk => ?_
      by_cases hkz : fftAt s n k = 0
      · rw [hkz, zero_mul, zero_mul]
      · obtain ⟨c, hc⟩ := hdvd_bin k (Finset.mem_range.mp hk) hkz
        have hsplit : (k : ℤ) * ((m + g : ℕ) : ℤ) = (k : ℤ) * m + (k : ℤ) * g := by
          push_cast
          ring
        rw [hsplit, cexp_add]
        have hkg : cexp n ((k : ℤ) * g) = 1 := by
          apply (cexp_eq_one_iff n hnpos _).mpr
          have hcast : (k : ℤ) * g = ((n' * g : ℕ) : ℤ) * c := by
            rw [hc]
            push_cast
            ring
          rw [hn'g] at hcast
          exact ⟨c, hcast⟩
        rw [hkg, mul_one]
    have hC : ((s.getD (m + g) 0 : ℝ) : ℂ) = ((s.getD m 0 : ℝ) : ℂ) := by
      rw [← hinv1, ← hinv2, hsame]
    exact_mod_cast hC
  have hchain : ∀ q m, m + q * g < n → s.getD (m + q * g) 0 = s.getD m 0 := by
    intro q
    induction q with
    | zero =>
      intro m _
      simp
    | succ q ih =>
      intro m hm
      have hsm : (q + 1) * g = q * g + g := Nat.succ_mul q g
      have h1 : m + q * g + g < n := by omega
      calc s.getD (m + (q + 1) * g) 0 = s.getD (m + q * g + g) 0 := by
            congr 1
            omega
        _ = s.getD (m + q * g) 0 := hper _ h1
        _ = s.getD m 0 := ih m (by omega)
  obtain ⟨q, hq1, hq2⟩ := exists_mul_in_window (L - i0) g hgpos
  have hr2 : i0 + q * g < n := by omega
  have hzero : s.getD (i0 + q * g) 0 = 0 :=
    List.getD_eq_default _ _ (by omega)
  have hfin := hchain q i0 hr2
  rw [hzero] at hfin
  exact hi0 hfin.symm

/-! ### Claim C3: identical signals give TDOA = 0 under every method -/

theorem gcc_self_ok (s : List ℝ) (fs : ℝ) (m : String)
    (hm : pyLower m = "phat" ∨ pyLower m = "scot")
    (hs : ∃ i, ∃ _ : i < s.length, s.getD i 0 ≠ 0) :
    estimate_tdoa_gcc s s fs m = Except.ok 0 := by
  have hL1 : 1 ≤ s.length := by
    obtain ⟨i, hi, _⟩ := hs
    omega
  have hnpos : 0 < s.length + s.length - 1 := by omega
  have hhalf : (s.length + s.length - 1) / 2 < s.length + s.length - 1 :=
    Nat.div_lt_self hnpos (by norm_num)
  have hkey : ∀ j, j < s.length + s.length - 1 → j ≠ (s.length + s.length - 1) / 2 →
      (gccCc s s m).getD j 0 < (gccCc s s m).getD ((s.length + s.length - 1) / 2) 0 := by
    intro j hj hjne
    rw [gccCc_getD s s m hj, gccCc_getD s s m hhalf,
      ifftReAt_self s (s.length + s.length - 1) m hm,
      ifftReAt_self s (s.length + s.length - 1) m hm,
      fftshiftIdx_half (s.length + s.length - 1) hnpos]
    have htj1 : 1 ≤ fftshiftIdx (s.length + s.length - 1) j :=
      Nat.one_le_iff_ne_zero.mpr (fftshiftIdx_ne_zero (s.length + s.length - 1) j hj hjne)
    have htj2 : fftshiftIdx (s.length + s.length - 1) j < s.length + s.length - 1 :=
      fftshiftIdx_lt (s.length + s.length - 1) j hnpos
    apply xSelf_lt_zero s (s.length + s.length - 1) hnpos (fftshiftIdx (s.length + s.length - 1) j)
    exact gcc_self_support s hs (fftshiftIdx (s.length + s.length - 1) j) htj1 htj2
  have hmax : argmaxIdx (gccCc s s m) = (s.length + s.length - 1) / 2 := by
    apply argmaxIdx_eq_of_strict_max
    · rw [gccCc_length]
      exact hhalf
    · intro i hi hine
      rw [gccCc_length] at hi
      exact hkey i hi hine
  rw [estimate_tdoa_gcc, if_pos hm, hmax, gccLags_getD _ _ hhalf]
  simp

/-- C3 (amended): for every signal with at least one nonzero sample and any
sample rate, feeding the signal against itself returns TDOA = 0 under each of
the three methods (cross_correlation, gcc_phat, gcc_scot). -/
theorem claim_C3_identical (s : List ℝ) (fs : ℝ)
    (hs : ∃ i, ∃ _ : i < s.length, s.getD i 0 ≠ 0) :
    estimate_tdoa_cc s s fs = 0 ∧
    estimate_tdoa_gcc s s fs "phat" = Except.ok 0 ∧
    estimate_tdoa_gcc s s fs "scot" = Except.ok 0 := by
  refine ⟨?_, gcc_self_ok s fs "phat" (Or.inl (by decide)) hs,
    gcc_self_ok s fs "scot" (Or.inr (by decide)) hs⟩
  have h := tdoa_cc_delayed_core s 0 fs hs
  rw [show delayedBy 0 s = s from by simp [delayedBy]] at h
  rw [h]
  simp

/-- Witness for C3 (amended) at a concrete nonzero signal. -/
theorem claim_C3_identical_witness :
    estimate_tdoa_cc ([1, 2] : List ℝ) [1, 2] 2 = 0 ∧
    estimate_tdoa_gcc ([1, 2] : List ℝ) [1, 2] 2 "phat" = Except.ok 0 ∧
    estimate_tdoa_gcc ([1, 2] : List ℝ) [1, 2] 2 "scot" = Except.ok 0 :=
  claim_C3_identical [1, 2] 2 ⟨0, by simp, by norm_num⟩

end DSP
